import Mathlib

/-!
Shallow embedding of the envaridator library (`src/index.ts`): registration of named
environment variables with caller-supplied validators, post-validation rules, and a
single aggregating `validate()` pass.

Modelling conventions:
* The process environment is an explicit parameter `env : String → Option String`
  (`process.env[name]`; JS `undefined` is `none`).
* A caller-supplied validator `Validator<T> = (value: string | undefined) => T`
  (which may throw) is a function `Option String → Except String V`:
  `Except.error m` models a thrown error carrying message `m`.  A post-validation
  check `PostValidator = () => void` is a zero-argument caller function and is
  modelled by its (fixed) outcome `Except String Unit`.
* Effects are explicit: an operation that in TypeScript reads the environment or
  invokes a caller-supplied function also returns the list of such `Event`s, and an
  operation that mutates an object returns the updated object.  `throw` becomes an
  `Except.error` result carrying the error's message string.
* `a.localeCompare(b)` is modelled as lexicographic code-point comparison (`strLe`).
* The JS object `registeredVariables`, keyed by variable name, populated only
  through `register` (which refuses duplicate names) and iterated with
  `Object.keys` (insertion order for such string keys), is modelled as an
  insertion-ordered list of `Envar`s.
-/

/-- An observable external effect: an environment lookup (`process.env[name]`), an
invocation of a variable's caller-supplied validator, or an invocation of a rule's
caller-supplied check function. -/
inductive Event where
  | envLookup (name : String)
  | validatorCall (name : String)
  | ruleCheck (description : String)
deriving DecidableEq, Repr

/-- Lexicographic code-point comparison of character lists (`≤`). -/
def lexLe : List Char → List Char → Bool
  | [], _ => true
  | _ :: _, [] => false
  | a :: as, b :: bs =>
    if a.toNat < b.toNat then true
    else if b.toNat < a.toNat then false
    else lexLe as bs

/-- Relation `strLe a b` models `a.localeCompare(b) <= 0` as code-point order. -/
def strLe (a b : String) : Bool := lexLe a.data b.data

/-- The ordering relation used by `.sort((a, b) => a.localeCompare(b))`. -/
def strLeR (a b : String) : Prop := strLe a b = true

instance : DecidableRel strLeR :=
  fun a b => inferInstanceAs (Decidable (strLe a b = true))

theorem lexLe_trans :
    ∀ a b c, lexLe a b = true → lexLe b c = true → lexLe a c = true := by
  intro a
  induction a with
  | nil => intro b c _ _; rfl
  | cons x xs ih =>
    intro b c h1 h2
    cases b with
    | nil => simp [lexLe] at h1
    | cons y ys =>
      cases c with
      | nil => simp [lexLe] at h2
      | cons z zs =>
        simp only [lexLe] at h1 h2 ⊢
        split_ifs at h1 h2 ⊢ <;> first
        | rfl
        | omega
        | (exact ih ys zs h1 h2)

theorem lexLe_total : ∀ a b, lexLe a b = true ∨ lexLe b a = true := by
  intro a
  induction a with
  | nil => intro b; left; rfl
  | cons x xs ih =>
    intro b
    cases b with
    | nil => right; rfl
    | cons y ys =>
      simp only [lexLe]
      split_ifs <;> first
      | (left; rfl)
      | (right; rfl)
      | omega
      | (exact ih ys)

instance : IsTrans String strLeR :=
  ⟨fun a b c h1 h2 => lexLe_trans a.data b.data c.data h1 h2⟩

instance : IsTotal String strLeR :=
  ⟨fun a b => lexLe_total a.data b.data⟩

/-- Model of `class Envar<T>`: one registered environment variable: its `name`, its
caller-supplied `validator`, its `description`, and the memoization `cache`
(`{ empty: true }` is `none`, `{ value: v }` is `some v`). -/
structure Envar (V : Type) where
  name : String
  validator : Option String → Except String V
  description : String
  cache : Option V

/-- Model of `class Rule`: a post-validation rule: its `description` and the caller-supplied
zero-argument check, modelled by the check's outcome. -/
structure Rule where
  description : String
  validator : Except String Unit

/-- Private method `Envar.validate`: if the cache is empty, read `process.env[this.name]`
and run the validator, caching the value on success; return the cached value. -/
def Envar.validate {V : Type} (e : Envar V) (env : String → Option String) :
    Except String V × Envar V × List Event :=
  match e.cache with
  | some v => (.ok v, e, [])
  | none =>
    let value : Option String := env e.name
    match e.validator value with
    | .ok v => (.ok v, { e with cache := some v }, [.envLookup e.name, .validatorCall e.name])
    | .error m => (.error m, e, [.envLookup e.name, .validatorCall e.name])

/-- Getter `value` of `Envar`: delegate to `Envar.validate`, wrapping a failure into
an error with message `` `${this.name} - ${error.message}` ``. -/
def Envar.value {V : Type} (e : Envar V) (env : String → Option String) :
    Except String V × Envar V × List Event :=
  match e.validate env with
  | (.ok v, e', evs) => (.ok v, e', evs)
  | (.error m, e', evs) => (.error (e.name ++ " - " ++ m), e', evs)

/-- Method `Rule.validate()`: invoke the check; on failure re-throw
`new Error(error.message)` (the message is passed through unchanged). -/
def Rule.validate (r : Rule) : Except String Unit × List Event :=
  match r.validator with
  | .ok _ => (.ok (), [.ruleCheck r.description])
  | .error m => (.error m, [.ruleCheck r.description])

/-- Model of `class Envaridator`: the registry of variables and post-validation rules. -/
structure Envaridator (V : Type) where
  registeredVariables : List (Envar V)
  postValidations : List Rule

/-- Lookup `this.registeredVariables[name]`: lookup of a registered variable by name. -/
def Envaridator.findEnvar {V : Type} (s : Envaridator V) (name : String) : Option (Envar V) :=
  s.registeredVariables.find? (fun e => e.name == name)

/-- Method `Envaridator.register`: throw `` `Variable ${name} already defined!` `` when the
name is already present, otherwise store and return a fresh `Envar`. -/
def Envaridator.register {V : Type} (s : Envaridator V) (name : String)
    (validator : Option String → Except String V) (description : String) :
    Except String (Envaridator V × Envar V) :=
  if (s.findEnvar name).isSome then
    .error ("Variable " ++ name ++ " already defined!")
  else
    let envar : Envar V := ⟨name, validator, description, none⟩
    .ok ({ s with registeredVariables := s.registeredVariables ++ [envar] }, envar)

/-- Method `Envaridator.registerPostValidation`: append a new `Rule`; always succeeds. -/
def Envaridator.registerPostValidation {V : Type} (s : Envaridator V)
    (description : String) (validator : Except String Unit) : Envaridator V :=
  { s with postValidations := s.postValidations ++ [⟨description, validator⟩] }

/-- Private method `Envaridator.variablesStatus`: unshift the header onto the failed
variable messages and join with newlines. -/
def Envaridator.variablesStatus (failedVariables : List String) : String :=
  String.intercalate "\n"
    ("The following environment variables are invalid:\n" :: failedVariables)

/-- Private method `Envaridator.rulesStatus`: unshift the header onto the failed rule
messages and join with newlines. -/
def Envaridator.rulesStatus (failedRules : List String) : String :=
  String.intercalate "\n"
    ("The following validation rules are invalid:\n" :: failedRules)

/-- The body of `validate()`'s `forEach` over the registered variables: access
`value`, keep the updated variable, record a failure's message, accumulate events. -/
def Envaridator.varStep {V : Type} (env : String → Option String)
    (acc : List (Envar V) × List String × List Event) (e : Envar V) :
    List (Envar V) × List String × List Event :=
  match e.value env with
  | (.ok _, e', evs) => (acc.1 ++ [e'], acc.2.1, acc.2.2 ++ evs)
  | (.error m, e', evs) => (acc.1 ++ [e'], acc.2.1 ++ [m], acc.2.2 ++ evs)

/-- The body of `validate()`'s `forEach` over the rules: call `Rule.validate`,
record a failure's message, accumulate events. -/
def Envaridator.ruleStep (acc : List String × List Event) (r : Rule) :
    List String × List Event :=
  match r.validate with
  | (.ok _, evs) => (acc.1, acc.2 ++ evs)
  | (.error m, evs) => (acc.1 ++ [m], acc.2 ++ evs)

/-- Method `Envaridator.validate()`: access every registered variable's `value`, catching
each failure's message into `failedVariables`; run every rule's `validate()`,
catching each failure's message into `failedRules`; then build the report and throw
it when non-empty. -/
def Envaridator.validate {V : Type} (s : Envaridator V) (env : String → Option String) :
    Except String Unit × Envaridator V × List Event :=
  let varPass := s.registeredVariables.foldl (Envaridator.varStep env) ([], [], [])
  let rulePass := s.postValidations.foldl Envaridator.ruleStep ([], [])
  let failedVariables := varPass.2.1
  let failedRules := rulePass.1
  let result :=
    (if failedVariables.length > 0 then Envaridator.variablesStatus failedVariables else "")
    ++ (if failedRules.length > 0 then "\n\n" ++ Envaridator.rulesStatus failedRules else "")
  let s' : Envaridator V := { s with registeredVariables := varPass.1 }
  let trace := varPass.2.2 ++ rulePass.2
  if result = "" then (.ok (), s', trace) else (.error result, s', trace)

/-- Method `Envaridator.describeAll()`: one line `` `${name} - ${description}` `` per
variable, sorted with `localeCompare`; then the rule descriptions, sorted likewise;
all joined by newlines. -/
def Envaridator.describeAll {V : Type} (s : Envaridator V) : String :=
  let envars :=
    (s.registeredVariables.map (fun e => e.name ++ " - " ++ e.description)).insertionSort strLeR
  let rules := (s.postValidations.map (fun r => r.description)).insertionSort strLeR
  String.intercalate "\n" (envars ++ rules)

/-- The sorted, newline-joined block of `` `**${name}** - ${description}` `` lines
(the local `envars` of `describeAllMarkdown`). -/
def Envaridator.markdownVariablesBlock {V : Type} (s : Envaridator V) : String :=
  String.intercalate "\n"
    ((s.registeredVariables.map (fun e => "**" ++ e.name ++ "** - " ++ e.description)).insertionSort strLeR)

/-- The sorted, newline-joined block of rule descriptions
(the local `rules` of `describeAllMarkdown`). -/
def Envaridator.markdownRulesBlock {V : Type} (s : Envaridator V) : String :=
  String.intercalate "\n" ((s.postValidations.map (fun r => r.description)).insertionSort strLeR)

/-- Method `Envaridator.describeAllMarkdown()`: push `"#Variables"` and the variable block
when that block is a non-empty string, then `"#Post validation rules"` and the rule
block when that block is a non-empty string; join the pushed parts by newlines. -/
def Envaridator.describeAllMarkdown {V : Type} (s : Envaridator V) : String :=
  let envars := s.markdownVariablesBlock
  let rules := s.markdownRulesBlock
  let result : List String :=
    (if envars.length > 0 then ["#Variables", envars] else [])
    ++ (if rules.length > 0 then ["#Post validation rules", rules] else [])
  String.intercalate "\n" result

/-- The error message (if any) produced by accessing a variable's `value`. -/
def valueErr {V : Type} (env : String → Option String) (e : Envar V) : Option String :=
  match (e.value env).1 with
  | .error m => some m
  | .ok _ => none

/-- The messages collected into `failedVariables` by one `validate()` pass:
one per failing variable, in registration order. -/
def failedVariableMsgs {V : Type} (s : Envaridator V) (env : String → Option String) :
    List String :=
  s.registeredVariables.filterMap (valueErr env)

/-- The error message (if any) produced by one rule's `validate()`. -/
def ruleErr (r : Rule) : Option String :=
  match r.validate.1 with
  | .error m => some m
  | .ok _ => none

/-- The messages collected into `failedRules` by one `validate()` pass:
one per failing rule, in registration order. -/
def failedRuleMsgs {V : Type} (s : Envaridator V) : List String :=
  s.postValidations.filterMap ruleErr

/-- The report string built by `validate()` from the collected failure messages. -/
def report {V : Type} (s : Envaridator V) (env : String → Option String) : String :=
  (if (failedVariableMsgs s env).length > 0
    then Envaridator.variablesStatus (failedVariableMsgs s env) else "")
  ++ (if (failedRuleMsgs s).length > 0
    then "\n\n" ++ Envaridator.rulesStatus (failedRuleMsgs s) else "")

/-- Explicit form of the message produced by a failing `value` access:
the variable's registered name, `" - "`, then the validator's message. -/
theorem valueErr_eq {V : Type} (env : String → Option String) (e : Envar V) :
    valueErr env e =
      match e.cache with
      | some _ => none
      | none =>
        match e.validator (env e.name) with
        | .ok _ => none
        | .error m => some (e.name ++ " - " ++ m) := by
  unfold valueErr Envar.value Envar.validate
  cases hc : e.cache with
  | some v => rfl
  | none =>
    cases hv : e.validator (env e.name) with
    | ok v => simp [hv]
    | error m => simp [hv]

/-- Every `Rule.validate()` call invokes the rule's check exactly once. -/
theorem rule_validate_events (r : Rule) : r.validate.2 = [Event.ruleCheck r.description] := by
  unfold Rule.validate
  cases r.validator <;> rfl

theorem varFold_eq {V : Type} (env : String → Option String) :
    ∀ (l : List (Envar V)) (d : List (Envar V)) (f : List String) (t : List Event),
      l.foldl (Envaridator.varStep env) (d, f, t) =
        (d ++ l.map (fun e => (e.value env).2.1),
         f ++ l.filterMap (valueErr env),
         t ++ l.flatMap (fun e => (e.value env).2.2)) := by
  intro l
  induction l with
  | nil => intro d f t; simp
  | cons e l ih =>
    intro d f t
    rcases h : e.value env with ⟨r, e', evs⟩
    cases r with
    | ok v =>
      simp only [List.foldl_cons, Envaridator.varStep, h, List.map_cons, List.filterMap_cons,
        List.flatMap_cons, valueErr, ih]
      simp [h, List.append_assoc]
    | error m =>
      simp only [List.foldl_cons, Envaridator.varStep, h, List.map_cons, List.filterMap_cons,
        List.flatMap_cons, valueErr, ih]
      simp [h, List.append_assoc]

theorem ruleFold_eq :
    ∀ (l : List Rule) (f : List String) (t : List Event),
      l.foldl Envaridator.ruleStep (f, t) =
        (f ++ l.filterMap ruleErr, t ++ l.flatMap (fun r => r.validate.2)) := by
  intro l
  induction l with
  | nil => intro f t; simp
  | cons r l ih =>
    intro f t
    rcases h : r.validate with ⟨res, evs⟩
    cases res with
    | ok v =>
      simp only [List.foldl_cons, Envaridator.ruleStep, h, List.filterMap_cons,
        List.flatMap_cons, ruleErr, ih]
      simp [h, List.append_assoc]
    | error m =>
      simp only [List.foldl_cons, Envaridator.ruleStep, h, List.filterMap_cons,
        List.flatMap_cons, ruleErr, ih]
      simp [h, List.append_assoc]

/-- Master characterization of one `validate()` pass: its outcome is `report`,
its final state evaluates every registered variable (and keeps the rules), and
its event trace is each variable's trace followed by each rule's trace. -/
theorem Envaridator.validate_eq {V : Type} (s : Envaridator V) (env : String → Option String) :
    s.validate env =
      ((if report s env = "" then .ok () else .error (report s env)),
       ⟨s.registeredVariables.map (fun e => (e.value env).2.1), s.postValidations⟩,
       s.registeredVariables.flatMap (fun e => (e.value env).2.2)
         ++ s.postValidations.flatMap (fun r => r.validate.2)) := by
  simp only [Envaridator.validate, report, failedVariableMsgs, failedRuleMsgs,
    varFold_eq, ruleFold_eq, List.nil_append]
  split_ifs with h <;> rfl

theorem intercalateGo_eq (sep : String) :
    ∀ (t : List String) (acc b : String),
      String.intercalate.go acc sep (b :: t) = acc ++ sep ++ String.intercalate.go b sep t := by
  intro t
  induction t with
  | nil => intro acc b; rfl
  | cons c t ih =>
    intro acc b
    show String.intercalate.go (acc ++ sep ++ b) sep (c :: t) = _
    rw [ih, ih b c]
    simp [String.append_assoc]

theorem intercalate_cons_of_ne_nil (sep a : String) (l : List String) (h : l ≠ []) :
    String.intercalate sep (a :: l) = a ++ sep ++ String.intercalate sep l := by
  cases l with
  | nil => exact absurd rfl h
  | cons b t =>
    show String.intercalate.go a sep (b :: t) = _
    rw [intercalateGo_eq]
    rfl

theorem ne_empty_of_length_pos (s : String) (h : 0 < s.length) : s ≠ "" := by
  intro he
  subst he
  exact absurd h (by decide)

theorem length_intercalate_cons_ge (sep a : String) (l : List String) :
    a.length ≤ (String.intercalate sep (a :: l)).length := by
  cases l with
  | nil => exact Nat.le_refl _
  | cons b t =>
    rw [intercalate_cons_of_ne_nil sep a (b :: t) (by simp)]
    simp only [String.length_append]
    omega

theorem variablesStatus_ne_empty (l : List String) : Envaridator.variablesStatus l ≠ "" := by
  apply ne_empty_of_length_pos
  have h := length_intercalate_cons_ge "\n" "The following environment variables are invalid:\n" l
  have h2 : 0 < ("The following environment variables are invalid:\n" : String).length := by decide
  exact Nat.lt_of_lt_of_le h2 h

/-- C3: a `value` access whose validator succeeds caches the value; every later
access, under any environment, returns the same value, leaves the binding
unchanged, and performs no environment lookup and no validator call. -/
theorem value_memoized {V : Type} (e : Envar V) (env env2 : String → Option String) (v : V)
    (h : (e.value env).1 = .ok v) :
    ((e.value env).2.1).value env2 = (.ok v, (e.value env).2.1, ([] : List Event)) := by
  cases hc : e.cache with
  | some w =>
    simp only [Envar.value, Envar.validate, hc] at h ⊢
    simp at h
    subst h
    rfl
  | none =>
    cases hv : e.validator (env e.name) with
    | ok w =>
      simp only [Envar.value, Envar.validate, hc, hv] at h ⊢
      simp at h
      subst h
      rfl
    | error m => simp [Envar.value, Envar.validate, hc, hv] at h

/-- C4: a failing `value` access leaves the cache unevaluated (the binding is
returned unchanged, with its cache still empty) and performs the environment
lookup and the validator call, so the next access re-evaluates from scratch. -/
theorem value_failure_not_cached {V : Type} (e : Envar V) (env : String → Option String)
    (m : String) (h : (e.value env).1 = .error m) :
    e.cache = none ∧ (e.value env).2.1 = e ∧
      (e.value env).2.2 = [Event.envLookup e.name, Event.validatorCall e.name] := by
  cases hc : e.cache with
  | some w => simp [Envar.value, Envar.validate, hc] at h
  | none =>
    cases hv : e.validator (env e.name) with
    | ok w => simp [Envar.value, Envar.validate, hc, hv] at h
    | error m2 =>
      refine ⟨rfl, ?_, ?_⟩ <;> simp [Envar.value, Envar.validate, hc, hv]

/-- C7: when the validator fails with message `m` during a `value` access, the
getter fails with message `name ++ " - " ++ m`. -/
theorem value_error_prefixed {V : Type} (e : Envar V) (env : String → Option String)
    (m : String) (hc : e.cache = none) (hv : e.validator (env e.name) = .error m) :
    (e.value env).1 = .error (e.name ++ " - " ++ m) := by
  simp [Envar.value, Envar.validate, hc, hv]

def okV : Option String → Except String Nat := fun _ => .ok 0

def errV (m : String) : Option String → Except String Nat := fun _ => .error m

def env0 : String → Option String := fun _ => none

def env1 : String → Option String := fun _ => some "changed"

theorem value_memoized_witness :
    (Envar.value (V := Nat) ⟨"N", okV, "d", none⟩ env0).1 = .ok 0 ∧
    ((Envar.value (V := Nat) ⟨"N", okV, "d", none⟩ env0).2.1).value env1
      = (.ok 0, (Envar.value (V := Nat) ⟨"N", okV, "d", none⟩ env0).2.1, ([] : List Event)) :=
  ⟨rfl, value_memoized _ env0 env1 0 rfl⟩

theorem value_failure_not_cached_witness :
    (Envar.value (V := Nat) ⟨"N", errV "bad", "d", none⟩ env0).1 = .error "N - bad" ∧
    ((⟨"N", errV "bad", "d", none⟩ : Envar Nat).cache = none ∧
      (Envar.value (V := Nat) ⟨"N", errV "bad", "d", none⟩ env0).2.1
        = ⟨"N", errV "bad", "d", none⟩ ∧
      (Envar.value (V := Nat) ⟨"N", errV "bad", "d", none⟩ env0).2.2
        = [Event.envLookup "N", Event.validatorCall "N"]) :=
  ⟨rfl, value_failure_not_cached _ env0 "N - bad" rfl⟩

theorem value_error_prefixed_witness :
    ((⟨"N", errV "bad", "d", none⟩ : Envar Nat).cache = none) ∧
    ((⟨"N", errV "bad", "d", none⟩ : Envar Nat).validator (env0 "N") = .error "bad") ∧
    (Envar.value (V := Nat) ⟨"N", errV "bad", "d", none⟩ env0).1 = .error "N - bad" :=
  ⟨rfl, rfl, value_error_prefixed _ env0 "bad" rfl rfl⟩

theorem variablesStatus_length_pos (l : List String) :
    0 < (Envaridator.variablesStatus l).length :=
  Nat.lt_of_lt_of_le (by decide)
    (length_intercalate_cons_ge "\n" "The following environment variables are invalid:\n" l)

/-- C1: when at least one variable access fails and no rule fails, `validate()`
throws a single error whose message is the header, a blank line, then one
`name - msg` line per failing variable, in registration order, newline-joined. -/
theorem validate_variables_report {V : Type} (s : Envaridator V)
    (env : String → Option String)
    (hvar : failedVariableMsgs s env ≠ []) (hrule : failedRuleMsgs s = []) :
    (s.validate env).1 = .error
      ("The following environment variables are invalid:\n\n" ++
        String.intercalate "\n" (s.registeredVariables.filterMap (fun e =>
          match e.cache with
          | some _ => none
          | none =>
            match e.validator (env e.name) with
            | .ok _ => none
            | .error m => some (e.name ++ " - " ++ m)))) := by
  have hmsgs : s.registeredVariables.filterMap (fun e =>
      match e.cache with
      | some _ => none
      | none =>
        match e.validator (env e.name) with
        | .ok _ => none
        | .error m => some (e.name ++ " - " ++ m)) = failedVariableMsgs s env := by
    unfold failedVariableMsgs
    exact List.filterMap_congr (fun e _ => (valueErr_eq env e).symm)
  have hrep : report s env = Envaridator.variablesStatus (failedVariableMsgs s env) := by
    unfold report
    rw [if_pos (Nat.lt_of_lt_of_le (Nat.zero_lt_one)
      (Nat.one_le_iff_ne_zero.mpr (fun h0 => hvar (List.eq_nil_of_length_eq_zero h0)))),
      hrule]
    simp [String.append_empty]
  have hne : report s env ≠ "" := by
    rw [hrep]
    exact ne_empty_of_length_pos _ (variablesStatus_length_pos _)
  rw [Envaridator.validate_eq, if_neg hne]
  show Except.error (report s env) = _
  rw [hrep, hmsgs]
  unfold Envaridator.variablesStatus
  rw [intercalate_cons_of_ne_nil _ _ _ hvar]
  congr 1

theorem validate_variables_report_witness :
    failedVariableMsgs (V := Nat) ⟨[⟨"FOO", errV "bad", "d", none⟩], []⟩ env0 ≠ [] ∧
    failedRuleMsgs (V := Nat) ⟨[⟨"FOO", errV "bad", "d", none⟩], []⟩ = [] ∧
    (Envaridator.validate (V := Nat) ⟨[⟨"FOO", errV "bad", "d", none⟩], []⟩ env0).1
      = .error ("The following environment variables are invalid:\n\n" ++
          String.intercalate "\n"
            (([⟨"FOO", errV "bad", "d", none⟩] : List (Envar Nat)).filterMap (fun e =>
              match e.cache with
              | some _ => none
              | none =>
                match e.validator (env0 e.name) with
                | .ok _ => none
                | .error m => some (e.name ++ " - " ++ m)))) :=
  ⟨by decide, rfl, validate_variables_report _ env0 (by decide) rfl⟩

theorem flatMap_rule_events (l : List Rule) :
    l.flatMap (fun r => r.validate.2) = l.map (fun r => Event.ruleCheck r.description) := by
  induction l with
  | nil => rfl
  | cons r l ih =>
    rw [List.flatMap_cons, List.map_cons, rule_validate_events, ih]
    rfl

/-- C5: one `validate()` pass returns normally exactly when no variable access and
no rule fails; otherwise it throws the single aggregated report; it evaluates every
registered variable (the final state maps `value` over all of them, keeping the
rules) and invokes every rule's check (one `ruleCheck` event per registered rule),
never stopping at a failure. -/
theorem validate_aggregates_all {V : Type} (s : Envaridator V) (env : String → Option String) :
    ((s.validate env).1 = if report s env = "" then .ok () else .error (report s env)) ∧
    (report s env = "" ↔ failedVariableMsgs s env = [] ∧ failedRuleMsgs s = []) ∧
    ((s.validate env).2.1 = ⟨s.registeredVariables.map (fun e => (e.value env).2.1),
        s.postValidations⟩) ∧
    ((s.validate env).2.2 = s.registeredVariables.flatMap (fun e => (e.value env).2.2)
        ++ s.postValidations.map (fun r => Event.ruleCheck r.description)) := by
  refine ⟨by rw [Envaridator.validate_eq], ?_, by rw [Envaridator.validate_eq], ?_⟩
  · constructor
    · intro h
      by_cases hv : failedVariableMsgs s env = []
      · by_cases hr : failedRuleMsgs s = []
        · exact ⟨hv, hr⟩
        · exfalso
          have hlen : 0 < (report s env).length := by
            unfold report
            rw [if_neg (by simp [hv]), if_pos (List.length_pos.mpr hr)]
            simp only [String.length_append]
            have : 0 < ("\n\n" : String).length := by decide
            omega
          exact ne_empty_of_length_pos _ hlen h
      · exfalso
        have hlen : 0 < (report s env).length := by
          unfold report
          rw [if_pos (List.length_pos.mpr hv)]
          simp only [String.length_append]
          have := variablesStatus_length_pos (failedVariableMsgs s env)
          omega
        exact ne_empty_of_length_pos _ hlen h
    · intro ⟨hv, hr⟩
      unfold report
      rw [hv, hr]
      rfl
  · rw [Envaridator.validate_eq]
    show _ ++ _ = _
    rw [flatMap_rule_events]

/-- C6: a failing rule's `validate()` re-throws the check's message unchanged; the
failed-rules section of the report collects exactly those raw messages, not
prefixed by the rule's description, while a failing variable's entry is prefixed
with the variable's name. -/
theorem rule_failures_unprefixed {V : Type} (r : Rule) (mr : String) (s : Envaridator V)
    (env : String → Option String) (e : Envar V) (me : String)
    (hr : r.validator = .error mr) (hc : e.cache = none)
    (hv : e.validator (env e.name) = .error me) :
    r.validate.1 = .error mr ∧
    failedRuleMsgs s = s.postValidations.filterMap
      (fun q => match q.validator with | .ok _ => none | .error m => some m) ∧
    (e.value env).1 = .error (e.name ++ " - " ++ me) := by
  refine ⟨by simp [Rule.validate, hr], ?_, by simp [Envar.value, Envar.validate, hc, hv]⟩
  unfold failedRuleMsgs
  apply List.filterMap_congr
  intro q _
  unfold ruleErr Rule.validate
  cases q.validator <;> rfl

theorem rule_failures_unprefixed_witness :
    (Rule.mk "desc" (.error "broken")).validator = .error "broken" ∧
    ((⟨"N", errV "bad", "d", none⟩ : Envar Nat).cache = none) ∧
    ((⟨"N", errV "bad", "d", none⟩ : Envar Nat).validator (env0 "N") = .error "bad") ∧
    ((Rule.mk "desc" (.error "broken")).validate.1 = .error "broken" ∧
      failedRuleMsgs (V := Nat) ⟨[], [Rule.mk "desc" (.error "broken")]⟩
        = ([Rule.mk "desc" (.error "broken")] : List Rule).filterMap
            (fun q => match q.validator with | .ok _ => none | .error m => some m) ∧
      (Envar.value (V := Nat) ⟨"N", errV "bad", "d", none⟩ env0).1 = .error "N - bad") :=
  ⟨rfl, rfl, rfl,
    rule_failures_unprefixed (Rule.mk "desc" (.error "broken")) "broken"
      ⟨[], [Rule.mk "desc" (.error "broken")]⟩ env0 ⟨"N", errV "bad", "d", none⟩ "bad"
      rfl rfl rfl⟩

theorem length_pos_iff_ne_empty (x : String) : 0 < x.length ↔ x ≠ "" := by
  constructor
  · exact ne_empty_of_length_pos x
  · intro h
    cases x with
    | mk data =>
      cases data with
      | nil => exact absurd rfl h
      | cons c cs => simp [String.length]

theorem intercalate_singleton (sep a : String) : String.intercalate sep [a] = a := rfl

theorem intercalate_cons_ne_empty (sep a : String) (l : List String) (ha : a ≠ "") :
    String.intercalate sep (a :: l) ≠ "" :=
  ne_empty_of_length_pos _ (Nat.lt_of_lt_of_le ((length_pos_iff_ne_empty a).mpr ha)
    (length_intercalate_cons_ge sep a l))

theorem markdownVariablesBlock_empty_iff {V : Type} (s : Envaridator V) :
    s.markdownVariablesBlock = "" ↔ s.registeredVariables = [] := by
  unfold Envaridator.markdownVariablesBlock
  constructor
  · intro h
    by_contra hv
    cases hs : (s.registeredVariables.map
        (fun e => "**" ++ e.name ++ "** - " ++ e.description)).insertionSort strLeR with
    | nil =>
      have hp := (List.perm_insertionSort strLeR (s.registeredVariables.map
        (fun e => "**" ++ e.name ++ "** - " ++ e.description))).symm
      rw [hs] at hp
      exact hv (List.map_eq_nil_iff.mp (List.perm_nil.mp hp))
    | cons a t =>
      rw [hs] at h
      have hmem : a ∈ s.registeredVariables.map
          (fun e => "**" ++ e.name ++ "** - " ++ e.description) :=
        (List.perm_insertionSort strLeR _).subset (hs ▸ List.mem_cons_self a t)
      obtain ⟨e, _, he⟩ := List.mem_map.mp hmem
      apply intercalate_cons_ne_empty "\n" a t _ h
      rw [← he]
      apply ne_empty_of_length_pos
      simp only [String.length_append]
      have hs2 : 0 < ("**" : String).length := by decide
      omega
  · intro h
    rw [h]
    rfl

theorem markdownRulesBlock_empty_iff {V : Type} (s : Envaridator V) :
    s.markdownRulesBlock = "" ↔
      (s.postValidations.map (fun r => r.description) = []
        ∨ s.postValidations.map (fun r => r.description) = [""]) := by
  unfold Envaridator.markdownRulesBlock
  constructor
  · intro h
    cases hs : (s.postValidations.map (fun r => r.description)).insertionSort strLeR with
    | nil =>
      left
      have hp := (List.perm_insertionSort strLeR (s.postValidations.map
        (fun r => r.description))).symm
      rw [hs] at hp
      exact List.perm_nil.mp hp
    | cons a t =>
      cases t with
      | nil =>
        right
        rw [hs, intercalate_singleton] at h
        have hp := (List.perm_insertionSort strLeR (s.postValidations.map
          (fun r => r.description))).symm
        rw [hs, h] at hp
        exact List.perm_singleton.mp hp
      | cons b t2 =>
        exfalso
        rw [hs, intercalate_cons_of_ne_nil _ _ _ (by simp)] at h
        have hlen := congrArg String.length h
        simp only [String.length_append] at hlen
        have h2 : 0 < ("\n" : String).length := by decide
        have h0 : ("" : String).length = 0 := rfl
        omega
  · intro h
    cases h with
    | inl h => rw [h]; rfl
    | inr h => rw [h]; rfl

/-- C9 counterexample: with no variables and exactly one rule whose description is
the empty string, a rule is registered yet `describeAllMarkdown()` returns the
empty string, which contains no `"#Post validation rules"` heading line. -/
theorem markdown_heading_counterexample :
    (Envaridator.mk (V := Nat) [] [Rule.mk "" (.ok ())]).postValidations.length = 1 ∧
    (Envaridator.mk (V := Nat) [] [Rule.mk "" (.ok ())]).describeAllMarkdown = "" :=
  ⟨rfl, rfl⟩

/-- C9 amended: `describeAllMarkdown()` emits the `"#Variables"` heading exactly
when at least one variable is registered, but emits the `"#Post validation rules"`
heading exactly when the joined rule-description block is a non-empty string —
which differs from "at least one rule is registered" precisely when exactly one
rule, with an empty description, is registered. -/
theorem describeAllMarkdown_headings {V : Type} (s : Envaridator V) :
    (s.describeAllMarkdown = String.intercalate "\n"
      ((if s.registeredVariables.isEmpty then []
        else ["#Variables", s.markdownVariablesBlock])
       ++ (if s.markdownRulesBlock = "" then []
        else ["#Post validation rules", s.markdownRulesBlock]))) ∧
    (s.markdownRulesBlock = "" ↔
      (s.postValidations.map (fun r => r.description) = []
        ∨ s.postValidations.map (fun r => r.description) = [""])) := by
  refine ⟨?_, markdownRulesBlock_empty_iff s⟩
  have e1 : (if (s.markdownVariablesBlock).length > 0
        then ["#Variables", s.markdownVariablesBlock] else ([] : List String))
      = (if s.registeredVariables.isEmpty then []
        else ["#Variables", s.markdownVariablesBlock]) := by
    by_cases hv : s.registeredVariables = []
    · have hb : s.markdownVariablesBlock = "" := (markdownVariablesBlock_empty_iff s).mpr hv
      rw [hb]
      simp [hv]
    · have hb : s.markdownVariablesBlock ≠ "" :=
        fun h => hv ((markdownVariablesBlock_empty_iff s).mp h)
      rw [if_pos ((length_pos_iff_ne_empty _).mpr hb), if_neg (by simp [hv])]
  have e2 : (if (s.markdownRulesBlock).length > 0
        then ["#Post validation rules", s.markdownRulesBlock] else ([] : List String))
      = (if s.markdownRulesBlock = "" then []
        else ["#Post validation rules", s.markdownRulesBlock]) := by
    by_cases hb : s.markdownRulesBlock = ""
    · rw [if_pos hb, hb]
      simp
    · rw [if_neg hb, if_pos ((length_pos_iff_ne_empty _).mpr hb)]
  show String.intercalate "\n" _ = _
  rw [← e1, ← e2]

/-- C8: `describeAll()` is the newline-join of a block `L1` — a permutation of the
`name - description` variable lines, sorted by the string order — followed by a
block `L2` — a permutation of the rule descriptions, likewise sorted — with every
variable line before every rule line and no section headers. -/
theorem describeAll_sorted_sections {V : Type} (s : Envaridator V) :
    ∃ L1 L2 : List String,
      s.describeAll = String.intercalate "\n" (L1 ++ L2) ∧
      L1.Perm (s.registeredVariables.map (fun e => e.name ++ " - " ++ e.description)) ∧
      L1.Sorted strLeR ∧
      L2.Perm (s.postValidations.map (fun r => r.description)) ∧
      L2.Sorted strLeR := by
  refine ⟨(s.registeredVariables.map
      (fun e => e.name ++ " - " ++ e.description)).insertionSort strLeR,
    (s.postValidations.map (fun r => r.description)).insertionSort strLeR,
    ?_, ?_, ?_, ?_, ?_⟩
  · rfl
  · exact List.perm_insertionSort strLeR _
  · exact List.sorted_insertionSort strLeR _
  · exact List.perm_insertionSort strLeR _
  · exact List.sorted_insertionSort strLeR _

/-- C2: registering two distinct fresh names succeeds in sequence; registering the
same name a second time throws `` `Variable ${name} already defined!` `` (whatever
validator and description the second attempt carries), and the binding stored by
the first registration is still there, with its original fields and its cache
still unevaluated. -/
theorem register_distinct_then_duplicate {V : Type} (s : Envaridator V)
    (n1 n2 : String) (v1 v2 v3 : Option String → Except String V) (d1 d2 d3 : String)
    (h1 : s.findEnvar n1 = none) (h2 : s.findEnvar n2 = none) (hne : n1 ≠ n2) :
    s.register n1 v1 d1 = .ok
      ({ s with registeredVariables := s.registeredVariables ++ [⟨n1, v1, d1, none⟩] },
        ⟨n1, v1, d1, none⟩) ∧
    (Envaridator.register
        { s with registeredVariables := s.registeredVariables ++ [⟨n1, v1, d1, none⟩] }
        n2 v2 d2
      = .ok ({ s with registeredVariables :=
            (s.registeredVariables ++ [⟨n1, v1, d1, none⟩]) ++ [⟨n2, v2, d2, none⟩] },
          ⟨n2, v2, d2, none⟩)) ∧
    (Envaridator.register
        { s with registeredVariables := s.registeredVariables ++ [⟨n1, v1, d1, none⟩] }
        n1 v3 d3
      = .error ("Variable " ++ n1 ++ " already defined!")) ∧
    Envaridator.findEnvar
        { s with registeredVariables := s.registeredVariables ++ [⟨n1, v1, d1, none⟩] }
        n1
      = some ⟨n1, v1, d1, none⟩ := by
  have hbeq : (n1 == n2) = false := by simp [hne]
  have hself : (n1 == n1) = true := by simp
  have hf1 : Envaridator.findEnvar
      { s with registeredVariables := s.registeredVariables ++ [⟨n1, v1, d1, none⟩] } n1
      = some ⟨n1, v1, d1, none⟩ := by
    unfold Envaridator.findEnvar at h1 ⊢
    simp only [List.find?_append, h1, Option.none_or]
    simp [List.find?, hself]
  have hf2 : Envaridator.findEnvar
      { s with registeredVariables := s.registeredVariables ++ [⟨n1, v1, d1, none⟩] } n2
      = none := by
    unfold Envaridator.findEnvar at h2 ⊢
    simp only [List.find?_append, h2, Option.none_or]
    simp [List.find?, hbeq]
  refine ⟨?_, ?_, ?_, hf1⟩
  · unfold Envaridator.register
    rw [h1]
    rfl
  · unfold Envaridator.register
    rw [hf2]
    rfl
  · unfold Envaridator.register
    rw [hf1]
    rfl

theorem register_distinct_then_duplicate_witness :
    Envaridator.findEnvar (V := Nat) ⟨[], []⟩ "A" = none ∧
    Envaridator.findEnvar (V := Nat) ⟨[], []⟩ "B" = none ∧
    "A" ≠ "B" ∧
    (Envaridator.register (V := Nat) ⟨[], []⟩ "A" okV "da"
        = .ok (⟨[] ++ [⟨"A", okV, "da", none⟩], []⟩, ⟨"A", okV, "da", none⟩) ∧
      (Envaridator.register (V := Nat) ⟨[] ++ [⟨"A", okV, "da", none⟩], []⟩ "B" okV "db"
        = .ok (⟨([] ++ [⟨"A", okV, "da", none⟩]) ++ [⟨"B", okV, "db", none⟩], []⟩,
            ⟨"B", okV, "db", none⟩)) ∧
      (Envaridator.register (V := Nat) ⟨[] ++ [⟨"A", okV, "da", none⟩], []⟩ "A" okV "dc"
        = .error ("Variable " ++ "A" ++ " already defined!")) ∧
      Envaridator.findEnvar (V := Nat) ⟨[] ++ [⟨"A", okV, "da", none⟩], []⟩ "A"
        = some ⟨"A", okV, "da", none⟩) :=
  ⟨rfl, rfl, by decide,
    register_distinct_then_duplicate ⟨[], []⟩ "A" "B" okV okV okV "da" "db" "dc"
      rfl rfl (by decide)⟩

/-- C10: `describeAll()` and `describeAllMarkdown()` read only each variable's
`name` and `description` and each rule's `description`: their output is invariant
under any change to the variables' caches or validators and to the rules' checks.
In this embedding both take no environment and return only a string — no state
change and no `Event` —, mirroring that the source methods touch neither. -/
theorem describe_readonly {V : Type} (s : Envaridator V) (f : Envar V → Envar V)
    (g : Rule → Rule)
    (hf : ∀ e, (f e).name = e.name ∧ (f e).description = e.description)
    (hg : ∀ r, (g r).description = r.description) :
    Envaridator.describeAll ⟨s.registeredVariables.map f, s.postValidations.map g⟩
      = s.describeAll ∧
    Envaridator.describeAllMarkdown ⟨s.registeredVariables.map f, s.postValidations.map g⟩
      = s.describeAllMarkdown := by
  have hv : (s.registeredVariables.map f).map (fun e => e.name ++ " - " ++ e.description)
      = s.registeredVariables.map (fun e => e.name ++ " - " ++ e.description) := by
    rw [List.map_map]
    exact List.map_congr_left (fun e _ => by
      simp only [Function.comp_apply, (hf e).1, (hf e).2])
  have hv2 : (s.registeredVariables.map f).map
        (fun e => "**" ++ e.name ++ "** - " ++ e.description)
      = s.registeredVariables.map (fun e => "**" ++ e.name ++ "** - " ++ e.description) := by
    rw [List.map_map]
    exact List.map_congr_left (fun e _ => by
      simp only [Function.comp_apply, (hf e).1, (hf e).2])
  have hr : (s.postValidations.map g).map (fun r => r.description)
      = s.postValidations.map (fun r => r.description) := by
    rw [List.map_map]
    exact List.map_congr_left (fun r _ => by simp only [Function.comp_apply, hg r])
  constructor
  · show String.intercalate "\n" _ = String.intercalate "\n" _
    rw [hv, hr]
  · show String.intercalate "\n" _ = String.intercalate "\n" _
    unfold Envaridator.markdownVariablesBlock Envaridator.markdownRulesBlock
    rw [hv2, hr]

def cacheTamper : Envar Nat → Envar Nat := fun e => ⟨e.name, errV "x", e.description, some 1⟩

def ruleTamper : Rule → Rule := fun r => ⟨r.description, .error "y"⟩

theorem describe_readonly_witness :
    Envaridator.describeAll (V := Nat)
        ⟨([⟨"A", okV, "d", none⟩] : List (Envar Nat)).map cacheTamper,
          ([⟨"r", .ok ()⟩] : List Rule).map ruleTamper⟩
      = Envaridator.describeAll (V := Nat) ⟨[⟨"A", okV, "d", none⟩], [⟨"r", .ok ()⟩]⟩ ∧
    Envaridator.describeAllMarkdown (V := Nat)
        ⟨([⟨"A", okV, "d", none⟩] : List (Envar Nat)).map cacheTamper,
          ([⟨"r", .ok ()⟩] : List Rule).map ruleTamper⟩
      = Envaridator.describeAllMarkdown (V := Nat) ⟨[⟨"A", okV, "d", none⟩], [⟨"r", .ok ()⟩]⟩ :=
  describe_readonly ⟨[⟨"A", okV, "d", none⟩], [⟨"r", .ok ()⟩]⟩ cacheTamper ruleTamper
    (fun _ => ⟨rfl, rfl⟩) (fun _ => rfl)
